import Mathlib

/-!
Verification development for the bank-transaction categorization engine
(`rules.py`, `app.py`, `learn_rules.py`, `enhanced_learn_rules.py`,
`simple_learn_rules.py`).

The Python sources are shallowly embedded: strings are `String`, Python's
substring operator `in` becomes `substrB`, the rule dictionaries become the
`Rule` structure, Python's stable `sorted(..., key=priority)` becomes
Mathlib's stable `List.insertionSort`, and the learning pipeline works on an
explicit association list of pattern groups in insertion order (as Python
dicts preserve insertion order).
-/

/-- Whitespace characters recognised by Python's `\s` / `str.strip()`
(ASCII fragment, which covers bank narrations). -/
def isWsChar (c : Char) : Bool :=
  c = ' ' || c = '\t' || c = '\n' || c = '\r' || c = '\x0b' || c = '\x0c'

/-- The character class kept by `normalize_desc` (`app.py`):
`[A-Za-z0-9 &:/._-]`. -/
def isAllowedChar (c : Char) : Bool :=
  ('A' ≤ c && c ≤ 'Z') || ('a' ≤ c && c ≤ 'z') || ('0' ≤ c && c ≤ '9') ||
  c = ' ' || c = '&' || c = ':' || c = '/' || c = '.' || c = '_' || c = '-'

/-- `listStarts n h` : does `h` start with `n`? (helper for the substring
test). -/
def listStarts : List Char → List Char → Bool
  | [], _ => true
  | _ :: _, [] => false
  | a :: as, b :: bs => a = b && listStarts as bs

/-- `listHas n h` : does `n` occur as a contiguous run inside `h`?  This is
Python's `n in h` on strings. -/
def listHas : List Char → List Char → Bool
  | n, [] => n.isEmpty
  | n, c :: t => listStarts n (c :: t) || listHas n t

/-- Python's substring operator `needle in hay`. -/
def substrB (needle hay : String) : Bool :=
  listHas needle.data hay.data

/-- Python `str.upper()` (character-wise, computable in the kernel). -/
def upperS (s : String) : String := ⟨s.data.map Char.toUpper⟩

/-- Maximal whitespace-free runs of a character list, i.e. Python's
`str.split()` with no arguments.  `acc` accumulates the current word in
reverse. -/
def fieldsAux : List Char → List Char → List (List Char)
  | [], acc => if acc.isEmpty then [] else [acc.reverse]
  | c :: cs, acc =>
    if isWsChar c then
      if acc.isEmpty then fieldsAux cs [] else acc.reverse :: fieldsAux cs []
    else fieldsAux cs (c :: acc)

/-- Python `str.split()` on a character list. -/
def wsFields (l : List Char) : List (List Char) := fieldsAux l []

/-- Join words with single spaces: `" ".join(words)`. -/
def joinSp : List (List Char) → List Char
  | [] => []
  | [w] => w
  | w :: w' :: ws => w ++ ' ' :: joinSp (w' :: ws)

/-- Strip leading and trailing whitespace (Python `str.strip()`). -/
def trimWs (l : List Char) : List Char :=
  ((l.dropWhile isWsChar).reverse.dropWhile isWsChar).reverse

/-- Python `str.strip()` on a `String`. -/
def stripS (s : String) : String := ⟨trimWs s.data⟩

/-- `normalize_desc` (`app.py` lines 233-236):
`s = re.sub(r'\s+', ' ', s).strip()` followed by
`s = re.sub(r'[^A-Za-z0-9 &:/._-]', '', s)`.
The first step equals joining `s.split()` with single spaces. -/
def normalize_desc (s : String) : String :=
  ⟨(joinSp (wsFields s.data)).filter isAllowedChar⟩

/-! ## The rule data model (`rules.py`) -/

/-- A first-pass keyword rule (`RULES` entry in `rules.py`).  `notKw` embeds
the optional `"not"` key (`r.get("not", [])`). -/
structure Rule where
  name : String
  priority : Int
  anyKw : List String
  notKw : List String
  main : String
  sub : String
deriving DecidableEq, Repr

/-- Build a `RULES` entry that has no `"not"` key (none of the entries in
`rules.py` has one). -/
def mkR (name : String) (priority : Int) (anyKw : List String)
    (main sub : String) : Rule :=
  ⟨name, priority, anyKw, [], main, sub⟩

/-- `SALARY_NAME_MAP` from `rules.py`, in insertion order. -/
def SALARY_NAME_MAP : List (String × List String) :=
  [ ("Back Office",
     ["DASARI VAMSHI", "DUSARI NARESH", "KARAN SINGH", "KOKI SRIHARI REDDY"]),
    ("Operations Team",
     ["ARJUN DR EMP", "BALAJI GR", "GARIKAPATI PRADEEP", "KARTHIK DR",
      "KOLIPAKA BALAKRISHNA", "MALLESHWARI", "NANDI GAMA SHIVA KUMAR",
      "NELOJEE SAI KUMAR", "P SHIVA KUMAR", "PALTYA RAMESH", "PINAPOTHU RAMU",
      "PRASAD DR", "RAJESH DR", "SABAVATH SHIVA", "SACHIN GAUR",
      "SALAVATH SRINU", "THAMMICHETTY KOTESH", "NABADWIP DEBBARMA"]),
    ("Customer Care",
     ["BOBBILI ARCHANA", "KASIMALLA VAMSHI VARDHAN", "SHAHEEDA",
      "YELIMALA PRAVEEN"]) ]

/-- The five salary-context tokens of `apply_rules` (`rules.py` line 110). -/
def salaryCtxTokens : List String :=
  ["SALARY", "EXPENSES", "NEFT DR", "IMPS", "TPT"]

/-- `RULES` from `rules.py`, in source order. -/
def RULES : List Rule :=
  [ mkR "Vet India Pharma" 10 ["VET INDIA", "PHARMACEUTICALS"] "Grooming Inventory" "Vet India Pharma (VIP)",
    mkR "Nutan Medical" 10 ["NUTAN MEDICAL"] "Grooming Inventory" "Nutan Medical",
    mkR "ABK Imports" 10 ["ABK IMPORTS"] "Grooming Inventory" "ABK Imports",
    mkR "Amazon" 20 ["AMAZON"] "Grooming Inventory" "Amazon",
    mkR "Pubscribe" 15 ["PUBSCRIBE"] "Grooming Inventory" "Pubscribe Enterprises",
    mkR "Anasuya" 15 ["ANASUYA"] "Grooming Inventory" "Anasuya Food Tech",
    mkR "Imobility" 10 ["IMOBILITI", "IMOBILITY"] "Vehicle Subscription" "Imobility Subscription",
    mkR "Fuel Pump" 15 ["DEEPAKDIRECTORICICI"] "Fuel" "Fuel - Diesel & Petrol",
    mkR "Fuel Generic" 30 ["PETROL", "DIESEL", "BPCL", "UFILL", "BP PETROL"] "Fuel" "Fuel - Diesel & Petrol",
    mkR "Swiggy" 10 ["SWIGGY", "INSTAMART"] "Office Overhead" "Swiggy",
    mkR "Water Tanker" 30 ["TANKER", "WATER TANKER", "KRUPAKAR"] "Office Overhead" "Water Tanker",
    mkR "Milk" 30 ["MILK"] "Office Overhead" "Milk",
    mkR "Garbage" 30 ["GARBAGE"] "Office Overhead" "Garbage",
    mkR "Electrician" 30 ["ELECTRICIAN", "ELECTRICAL"] "Office Overhead" "Electrician",
    mkR "Water Bill" 40 ["BILLDKHYDERABADMETRO", "HYDERABAD METRO"] "Office Overhead" "Water Bill",
    mkR "Electricity Bill" 20 ["SOUTHERNPOWERDISTRIB"] "Electricity maintance & Bill" "Electricity Bill",
    mkR "Airtel" 10 ["AIRTEL", "AIRTELIN", "WWW AIRTEL IN"] "Telephone & Internet" "Airtel Mobile and Internet",
    mkR "IMPS P2P Fee" 20 ["IMPS P2P", "MIR"] "Bank Charges" "Processing Fee",
    mkR "ATM/Withdr TDS" 20 ["TDS CASH WITHDRAWAL"] "Bank Charges" "Processing Fee",
    mkR "Petty Cash HIMA" 20 ["HIMADIRECTOR"] "Petty Cash" "Petty Cash (Mobile Grooming)",
    mkR "Bajaj Finance" 10 ["BAJAJ FINANCE"] "Loan EMI Payments" "Bajaj Finance",
    mkR "Godrej Finance" 10 ["GODREJFINANCE"] "Loan EMI Payments" "Godrej Finance",
    mkR "UGRO Capital" 10 ["UGRO CAPITAL"] "Loan EMI Payments" "UGRO CAPITAL",
    mkR "India Infoline" 10 ["INFOLINE"] "Loan EMI Payments" "India Infoline Finance",
    mkR "Unity Small" 10 ["UNITY SMALL", "UNITYSMALL"] "Loan EMI Payments" "Unity Small Finance",
    mkR "Shriram" 10 ["SHRIRAM"] "Loan EMI Payments" "Shriram Finance",
    mkR "HDFC EMI (CHQ)" 40 ["EMI ", " CHQ S"] "Loan EMI Payments" "HDFC Loan EMI",
    mkR "HandLoan Rao" 10 ["VENKATESWARA RAO"] "Loan EMI Payments" "Venkateswara Rao HandLoan",
    mkR "HandLoan Sanjay" 10 ["SANJAY PAN"] "Loan EMI Payments" "Sanjay Pan HandLoan",
    mkR "Slot Books" 25 ["SLOT", "BOOKS"] "Admin Expenses" "Slot Books",
    mkR "Vet Doctor" 30 ["DRKARTHEEK", "VET", "DOCTOR", "KARTHEEK"] "Admin Expenses" "Veterinary Doctor Charges",
    mkR "Hostel Fee" 15 ["HOSTEL", "SRIPAL REDDY"] "Employee Welfare" "Hostel Fee for Employees",
    mkR "Customer Refund" 25 ["REFUND", "CUSTOMER", "SLOT"] "Customer Refund" "Customer Refund of Slots",
    mkR "Generator Oil" 25 ["GENERATOR OIL"] "Repari & Maintenance" "Generator Oil",
    mkR "Plumbing" 15 ["PLUMBING", "MANOJ MALIK"] "Repari & Maintenance" "Plumbing Maintenance",
    mkR "Water Wash" 25 ["WATER WASH"] "Repari & Maintenance" "Water Wash",
    mkR "TDS Payment" 25 ["CBDT"] "Tax & Duties" "TDS Payment",
    mkR "GST Payment" 25 ["GST"] "Tax & Duties" "GST Payment",
    mkR "EPFO" 15 ["PSIVR"] "Tax & Duties" "EPFO" ]

/-! ## The classifier (`apply_rules` in `rules.py`) -/

/-- `any(k in text for k in ("SALARY","EXPENSES","NEFT DR","IMPS","TPT"))`. -/
def ctxHit (text : String) : Bool :=
  salaryCtxTokens.any fun k => substrB k text

/-- Step 1 of `apply_rules`: scan the salary name map in insertion order,
returning the first `(sub_category, name)` whose name occurs in `text`
while a salary-context token is also present. -/
def salaryScan : List (String × List String) → String → Option (String × String)
  | [], _ => none
  | (sub, names) :: rest, text =>
    match names.find? (fun nm => substrB nm text && ctxHit text) with
    | some nm => some (sub, nm)
    | none => salaryScan rest text

/-- A keyword rule matches `text` iff some `any` token occurs and no `not`
token occurs (`rules.py` line 115). -/
def matchesB (r : Rule) (text : String) : Bool :=
  (r.anyKw.any fun tok => substrB tok text) &&
  !(r.notKw.any fun tok => substrB tok text)

/-- The sort relation of `sorted(RULES, key=lambda x: x.get("priority", 100))`. -/
def RuleLE (a b : Rule) : Prop := a.priority ≤ b.priority

instance : DecidableRel RuleLE := fun a b => Int.decLe a.priority b.priority

instance : IsTotal Rule RuleLE := ⟨fun a b => Int.le_total a.priority b.priority⟩

instance : IsTrans Rule RuleLE := ⟨fun _ _ _ h h' => le_trans h h'⟩

/-- Python's stable ascending sort by priority. -/
def sortRules (rules : List Rule) : List Rule := rules.insertionSort RuleLE

/-- Step 2 of `apply_rules`: the first matching rule in priority order. -/
def keywordSelect (rules : List Rule) (text : String) : Option Rule :=
  (sortRules rules).find? fun r => matchesB r text

/-- `apply_rules` (`rules.py` lines 98-119), generalised over the salary map
and rule list it consults. -/
def applyRulesGen (salMap : List (String × List String)) (rules : List Rule)
    (narration : Option String) : Option String × Option String × Option String :=
  match narration with
  | none => (none, none, none)
  | some s =>
    let text := upperS s
    match salaryScan salMap text with
    | some (sub, nm) =>
      (some "Salaries & Wages", some sub, some ("Salary name: " ++ nm))
    | none =>
      match keywordSelect rules text with
      | some r => (some r.main, some r.sub, some r.name)
      | none => (none, none, none)

/-- `apply_rules` as shipped: the concrete map and rule list of `rules.py`. -/
def apply_rules (narration : Option String) :
    Option String × Option String × Option String :=
  applyRulesGen SALARY_NAME_MAP RULES narration

/-- Sanity check: the spec's concrete scenario 2. -/
theorem sanity_scenario2 : apply_rules (some "POS 514834XXXXXX2870 AMAZON P") =
    (some "Grooming Inventory", some "Amazon", some "Amazon") := by decide

/-- Sanity check: a TPT salary narration resolves to the salary verdict. -/
theorem sanity_salary : apply_rules (some "50100541552099-TPT-SALARY-SABAVATH SHIVA") =
    (some "Salaries & Wages", some "Operations Team",
     some "Salary name: SABAVATH SHIVA") := by decide

/-! ## The database-backed classifier (`apply_rules_wrapper` in `app.py`) -/

/-- One row of the `rules` table as fetched by `_load_rules_from_database`.
`keywords = none` models a `keywords` JSON blob that fails to
parse/deserialize (the `json.JSONDecodeError`/`TypeError` branch, which
replaces it by `[]`). -/
structure DBRow where
  name : String
  priority : Int
  keywords : Option (List String)
  main : String
  sub : String
  is_active : Bool
deriving DecidableEq, Repr

/-- A rule as held in the wrapper's cache after loading. -/
structure LoadedRule where
  name : String
  priority : Int
  keywords : List String
  main : String
  sub : String
deriving DecidableEq, Repr

/-- Loading one row (`app.py` lines 97-125): inactive rows are dropped,
unparsable keyword blobs become `[]`. -/
def loadRow (r : DBRow) : Option LoadedRule :=
  if r.is_active then
    some ⟨r.name, r.priority, r.keywords.getD [], r.main, r.sub⟩
  else none

/-- All loaded rules, in the order delivered by the database query. -/
def loadedOf (rows : List DBRow) : List LoadedRule := rows.filterMap loadRow

/-- `name.startswith("Salary: ")`. -/
def salaryNameB (n : String) : Bool := listStarts "Salary: ".data n.data

/-- The `salary_rules` partition of the loaded rules. -/
def salaryOf (rows : List DBRow) : List LoadedRule :=
  (loadedOf rows).filter fun r => salaryNameB r.name

/-- The regular `rules` partition of the loaded rules. -/
def regularOf (rows : List DBRow) : List LoadedRule :=
  (loadedOf rows).filter fun r => !salaryNameB r.name

/-- Salary-rule match (`app.py` lines 163-171): at least two keywords, the
first (employee name) occurs in the text, and some remaining keyword
occurs as well. -/
def salaryMatchB (r : LoadedRule) (text : String) : Bool :=
  decide (2 ≤ r.keywords.length) &&
  substrB (r.keywords.headD "") text &&
  r.keywords.tail.any fun k => substrB k text

/-- Regular-rule match (`app.py` line 175): any keyword occurs. -/
def regularMatchB (r : LoadedRule) (text : String) : Bool :=
  r.keywords.any fun k => substrB k text

/-- First salary rule that matches, in delivered order. -/
def salarySelect (srules : List LoadedRule) (text : String) : Option LoadedRule :=
  srules.find? fun r => salaryMatchB r text

/-- First regular rule that matches, in delivered order. -/
def regularSelect (rrules : List LoadedRule) (text : String) : Option LoadedRule :=
  rrules.find? fun r => regularMatchB r text

/-- `apply_rules_wrapper` (`app.py` lines 145-183), applied to the rule rows
delivered by the database (already ordered by ascending priority in SQL). -/
def apply_rules_wrapper (rows : List DBRow) (narration : Option String) :
    Option String × Option String × Option String :=
  match narration with
  | none => (none, none, none)
  | some s =>
    let text := upperS s
    match salarySelect (salaryOf rows) text with
    | some r => (some r.main, some r.sub, some r.name)
    | none =>
      match regularSelect (regularOf rows) text with
      | some r => (some r.main, some r.sub, some r.name)
      | none => (none, none, none)

/-! ## The rule learners (`learn_rules.py`, `enhanced_learn_rules.py`,
`simple_learn_rules.py`)

A labeled transaction carries the fields the learners read from the
`v_transactions_with_category` corpus. -/

structure LTx where
  normalized_desc : String
  vendor_text : Option String
  main_category : Option String
  sub_category : Option String
  confidence : ℚ
deriving DecidableEq, Repr

/-- Python truthiness of an optional string (`None` and `""` are falsy). -/
def truthyS : Option String → Bool
  | none => false
  | some s => !(s == "")

/-- The stop-word list shared by `extract_keywords` and
`_create_pattern_key` (enhanced variants). -/
def descStopExt : List String :=
  ["PAYMENT", "TRANSFER", "NEFT", "IMPS", "ACH", "UPI", "POS", "DR", "CR",
   "THE", "AND", "FOR", "WITH", "FROM", "TO", "OF", "IN", "ON", "AT", "BY"]

/-- The generic transaction-type tokens filtered from vendor text. -/
def genericTokens : List String :=
  ["ACH", "NEFT", "IMPS", "UPI", "POS", "DR", "CR"]

/-- The shorter stop list of `create_pattern_key` in `learn_rules.py`. -/
def patternStopB : List String :=
  ["PAYMENT", "TRANSFER", "NEFT", "IMPS", "ACH", "UPI", "POS"]

/-- Python `str.isdigit()` (ASCII model). -/
def isDigitStr (w : String) : Bool := !(w == "") && w.data.all Char.isDigit

/-- Python `str.isalnum()` (ASCII model). -/
def isAlnumStr (w : String) : Bool :=
  !(w == "") && w.data.all fun c => c.isAlpha || c.isDigit

/-- `s.split()` as a list of strings. -/
def wordsOf (s : String) : List String :=
  (wsFields s.data).map fun w => (⟨w⟩ : String)

/-- Keyword filter of the enhanced `_extract_keywords` /
`_create_pattern_key`: length ≥ 3, not a stop word, not all digits,
alphanumeric. -/
def kwFilterE (w : String) : Bool :=
  decide (3 ≤ w.length) && !(descStopExt.contains w) &&
  !(isDigitStr w) && isAlnumStr w

/-- Keyword filter of `extract_keywords` in `learn_rules.py`: length ≥ 3 and
not a stop word (no alphanumeric/digit filter there). -/
def kwFilterB (w : String) : Bool :=
  decide (3 ≤ w.length) && !(descStopExt.contains w)

/-- Order-preserving de-duplication (first occurrence kept); this
determinises Python's `list(set(...))`, whose order is unspecified. -/
def dedupKF : List String → List String → List String
  | _, [] => []
  | seen, x :: xs =>
    if seen.contains x then dedupKF seen xs
    else x :: dedupKF (x :: seen) xs

/-- `RuleLearner._extract_keywords` (`enhanced_learn_rules.py` 176-199). -/
def extractKeywordsE (d : String) (vendor : Option String) : List String :=
  let descKws := (wordsOf (upperS d)).filter kwFilterE
  let vendKws :=
    match vendor with
    | some v =>
      if decide (2 < (stripS v).length) then
        let vc := stripS (upperS v)
        if genericTokens.contains vc then [] else [vc]
      else []
    | none => []
  dedupKF [] (descKws ++ vendKws)

/-- `extract_keywords` (`learn_rules.py` 163-184). -/
def extractKeywordsB (d : String) (vendor : Option String) : List String :=
  let descKws := (wordsOf (upperS d)).filter kwFilterB
  let vendKws :=
    match vendor with
    | some v =>
      if decide (0 < (stripS v).length) then
        let vc := stripS (upperS v)
        if decide (3 ≤ vc.length) then [vc] else []
      else []
    | none => []
  dedupKF [] (descKws ++ vendKws)

/-- Description-token fallback key of the enhanced `_create_pattern_key`. -/
def descKeyE (d : String) : String :=
  let keyWords := (wordsOf (upperS d)).filter kwFilterE
  if keyWords.isEmpty then ⟨(upperS d).data.take 50⟩
  else ⟨joinSp ((keyWords.take 3).map String.data)⟩

/-- `RuleLearner._create_pattern_key` (`enhanced_learn_rules.py` 151-174,
identical in `simple_learn_rules.py`). -/
def createPatternKeyE (d : String) (vendor : Option String) : String :=
  match vendor with
  | some v =>
    if decide (2 < (stripS v).length) then
      let vc := stripS (upperS v)
      if genericTokens.contains vc then descKeyE d else vc
    else descKeyE d
  | none => descKeyE d

/-- Description-token fallback key of `create_pattern_key` in
`learn_rules.py` (length ≥ 4 filter, shorter stop list). -/
def descKeyB (d : String) : String :=
  let keyWords := (wordsOf (upperS d)).filter fun w =>
    decide (4 ≤ w.length) && !(patternStopB.contains w)
  if keyWords.isEmpty then ⟨(upperS d).data.take 50⟩
  else ⟨joinSp ((keyWords.take 3).map String.data)⟩

/-- `create_pattern_key` (`learn_rules.py` 148-161): any non-blank vendor
text is used verbatim, with no generic-token or numeric filtering. -/
def createPatternKeyB (d : String) (vendor : Option String) : String :=
  match vendor with
  | some v =>
    if decide (0 < (stripS v).length) then stripS (upperS v) else descKeyB d
  | none => descKeyB d

/-- A learning-time pattern group (`pattern_groups[key]`): member
transactions, the category of the first-seen member, and the keywords
extracted from the first-seen member.  (The `sample_descriptions` /
`vendor_texts` audit sets feed only display output and are omitted.) -/
structure PGroup where
  members : List LTx
  main : String
  sub : String
  keywords : List String
deriving DecidableEq, Repr

/-- Appending a transaction to an existing group only grows `members`. -/
def addTx (g : PGroup) (tx : LTx) : PGroup :=
  { g with members := g.members ++ [tx] }

/-- Insert a transaction under key `k` into the insertion-ordered group
association list, creating the group via `mk` if the key is new. -/
def insertGroup (k : String) (tx : LTx) (mk : LTx → PGroup) :
    List (String × PGroup) → List (String × PGroup)
  | [] => [(k, mk tx)]
  | (k', g) :: rest =>
    if k' = k then (k', addTx g tx) :: rest
    else (k', g) :: insertGroup k tx mk rest

/-- Group the corpus by pattern key, skipping transactions whose main or
sub category is falsy (the `continue` in the source loops). -/
def groupTx (keyFn : LTx → String) (mk : LTx → PGroup) :
    List LTx → List (String × PGroup) → List (String × PGroup)
  | [], gs => gs
  | tx :: txs, gs =>
    if truthyS tx.main_category && truthyS tx.sub_category then
      groupTx keyFn mk txs (insertGroup (keyFn tx) tx mk gs)
    else groupTx keyFn mk txs gs

/-- Group constructor used by the enhanced learner. -/
def mkGroupE (tx : LTx) : PGroup :=
  ⟨[tx], tx.main_category.getD "", tx.sub_category.getD "",
   extractKeywordsE tx.normalized_desc tx.vendor_text⟩

/-- Group constructor used by the `learn_rules.py` learner. -/
def mkGroupB (tx : LTx) : PGroup :=
  ⟨[tx], tx.main_category.getD "", tx.sub_category.getD "",
   extractKeywordsB tx.normalized_desc tx.vendor_text⟩

/-- A candidate rule proposed by a learner. -/
structure CandidateRule where
  name : String
  priority : Int
  anyKw : List String
  main : String
  sub : String
  frequency : Nat
  confidence : ℚ
deriving DecidableEq, Repr

/-- `sum(t.confidence for t in members)`. -/
def sumConf (l : List LTx) : ℚ := l.foldl (fun acc t => acc + t.confidence) 0

/-- `avg_confidence = sum(...) / frequency`. -/
def avgConf (l : List LTx) : ℚ := sumConf l / (l.length : ℚ)

/-- `RuleLearner._calculate_priority` (`enhanced_learn_rules.py` 241-250),
identical inline in `simple_learn_rules.py` 108-115. -/
def calcPriority (freq : Nat) (conf : ℚ) : Int :=
  if 10 ≤ freq ∧ (9 : ℚ)/10 ≤ conf then 10
  else if 5 ≤ freq ∧ (8 : ℚ)/10 ≤ conf then 20
  else if 3 ≤ freq ∧ (7 : ℚ)/10 ≤ conf then 30
  else 50

/-- The novel keywords of a group: not already known and of length ≥ 3. -/
def newKeywords (existing : List String) (g : PGroup) : List String :=
  g.keywords.filter fun kw => !(existing.contains kw) && decide (3 ≤ kw.length)

/-- Assemble the emitted rule dictionary: name from the lead keyword (with
a `+N` suffix counting the remaining novel keywords), `any` capped to the
first three novel keywords. -/
def mkCandidate (nameKw : String) (newKws : List String) (pri : Int)
    (g : PGroup) (freq : Nat) (conf : ℚ) : CandidateRule :=
  ⟨"Auto-learned: " ++ nameKw ++
     (if 1 < newKws.length then " +" ++ toString (newKws.length - 1) else ""),
   pri, newKws.take 3, g.main, g.sub, freq, conf⟩

/-- `RuleLearner._generate_rules_from_patterns`
(`enhanced_learn_rules.py` 201-239).  The rule name's lead keyword is
`Counter(keywords).most_common(1)`, which on the de-duplicated keyword
list (all counts 1) is its first element. -/
def genRulesE (minF : Nat) (minC : ℚ) (existing : List String) :
    List (String × PGroup) → List CandidateRule
  | [] => []
  | (_, g) :: rest =>
    let freq := g.members.length
    let conf := avgConf g.members
    if minF ≤ freq ∧ minC ≤ conf then
      let newKws := newKeywords existing g
      if newKws.isEmpty then genRulesE minF minC existing rest
      else mkCandidate (g.keywords.headD "") newKws (calcPriority freq conf)
             g freq conf :: genRulesE minF minC existing rest
    else genRulesE minF minC existing rest

/-- Rule generation of `learn_rules_from_database` (`learn_rules.py`
109-134): fixed priority 50, name from the first novel keyword. -/
def genRulesB (minF : Nat) (minC : ℚ) (existing : List String) :
    List (String × PGroup) → List CandidateRule
  | [] => []
  | (_, g) :: rest =>
    let freq := g.members.length
    let conf := avgConf g.members
    if minF ≤ freq ∧ minC ≤ conf then
      let newKws := newKeywords existing g
      if newKws.isEmpty then genRulesB minF minC existing rest
      else mkCandidate (newKws.headD "") newKws 50 g freq conf ::
             genRulesB minF minC existing rest
    else genRulesB minF minC existing rest

/-- The stable descending sort key `(frequency, confidence)` of
`new_rules.sort(..., reverse=True)`. -/
def candGE (a b : CandidateRule) : Prop :=
  b.frequency < a.frequency ∨
  (b.frequency = a.frequency ∧ b.confidence ≤ a.confidence)

instance : DecidableRel candGE := fun a b => by
  unfold candGE; exact inferInstance

/-- Stable descending sort of the candidate list. -/
def sortCands (l : List CandidateRule) : List CandidateRule :=
  l.insertionSort candGE

/-- Pattern key of a transaction, enhanced variant. -/
def keyE (tx : LTx) : String :=
  createPatternKeyE tx.normalized_desc tx.vendor_text

/-- Pattern key of a transaction, `learn_rules.py` variant. -/
def keyB (tx : LTx) : String :=
  createPatternKeyB tx.normalized_desc tx.vendor_text

/-- `RuleLearner.learn_rules_from_database` (`enhanced_learn_rules.py`),
with the corpus rows supplied directly: group, generate, sort, cap. -/
def learnEnhanced (txs : List LTx) (minF : Nat) (minC : ℚ)
    (existing : List String) (maxRules : Nat) : List CandidateRule :=
  (sortCands (genRulesE minF minC existing (groupTx keyE mkGroupE txs []))).take
    maxRules

/-- `learn_rules_from_database` (`learn_rules.py`), with the corpus rows
supplied directly: group, generate, sort (no cap). -/
def learnBasic (txs : List LTx) (minF : Nat) (minC : ℚ)
    (existing : List String) : List CandidateRule :=
  sortCands (genRulesB minF minC existing (groupTx keyB mkGroupB txs []))

/-- Sanity check: the spec's concrete scenario 3 (three Swiggy rows learn
one rule with frequency 3 and priority 30). -/
theorem sanity_scenario3 :
    learnEnhanced
      (List.replicate 3
        ⟨"UPI SWIGGYINSTAMART ORDER", some "SWIGGYINSTAMART",
         some "Office Overhead", some "Swiggy", 19/20⟩)
      2 (8/10) [] 50 =
    [⟨"Auto-learned: SWIGGYINSTAMART +1", 30, ["SWIGGYINSTAMART", "ORDER"],
      "Office Overhead", "Swiggy", 3, 19/20⟩] := by with_unfolding_all decide

/-! ## Helper lemmas about the salary scan and keyword selection -/

lemma salaryScan_some_of_hit {m : List (String × List String)} {text : String}
    {sub : String} {names : List String} {nm : String}
    (hmem : (sub, names) ∈ m) (hnm : nm ∈ names)
    (hsub : substrB nm text = true) (hctx : ctxHit text = true) :
    ∃ s2 n2, salaryScan m text = some (s2, n2) := by
  induction m with
  | nil => cases hmem
  | cons e rest ih =>
    obtain ⟨s0, ns0⟩ := e
    unfold salaryScan
    cases hf : ns0.find? (fun nm => substrB nm text && ctxHit text) with
    | some nm0 => exact ⟨s0, nm0, rfl⟩
    | none =>
      rcases List.mem_cons.mp hmem with heq | hrest
      · exfalso
        have hall := List.find?_eq_none.mp hf nm
        have : (sub, names) = (s0, ns0) := heq
        injection this with h1 h2
        subst h2
        exact hall hnm (by rw [hsub, hctx]; rfl)
      · exact ih hrest

lemma salaryScan_sound {m : List (String × List String)} {text : String}
    {sub nm : String} (h : salaryScan m text = some (sub, nm)) :
    ∃ names, (sub, names) ∈ m ∧ nm ∈ names ∧
      substrB nm text = true ∧ ctxHit text = true := by
  induction m with
  | nil => cases h
  | cons e rest ih =>
    obtain ⟨s0, ns0⟩ := e
    unfold salaryScan at h
    cases hf : ns0.find? (fun nm => substrB nm text && ctxHit text) with
    | some nm0 =>
      rw [hf] at h
      injection h with h'
      injection h' with hsub hnm
      subst hsub; subst hnm
      have hp := List.find?_some hf
      have hmem := List.mem_of_find?_eq_some hf
      rw [Bool.and_eq_true] at hp
      exact ⟨ns0, List.mem_cons_self _ _, hmem, hp.1, hp.2⟩
    | none =>
      rw [hf] at h
      obtain ⟨names, hmem, rest'⟩ := ih h
      exact ⟨names, List.mem_cons_of_mem _ hmem, rest'⟩

lemma keywordSelect_mem {rules : List Rule} {text : String} {r : Rule}
    (h : keywordSelect rules text = some r) : r ∈ rules := by
  have := List.mem_of_find?_eq_some h
  rwa [sortRules, List.mem_insertionSort] at this

lemma keywordSelect_matches {rules : List Rule} {text : String} {r : Rule}
    (h : keywordSelect rules text = some r) : matchesB r text = true := by
  unfold keywordSelect at h
  have hp := List.find?_some h
  exact hp

/-- No keyword rule of `rules.py` targets the salary main category. -/
lemma RULES_main_ne_salary : ∀ r ∈ RULES, r.main ≠ "Salaries & Wages" := by
  decide

/-- C1.  If a salary-map employee name occurs in the upper-cased narration
together with a salary-context token, `apply_rules` returns the salary
verdict of a matching name (its sub-category and `"Salary name: <name>"`),
regardless of any keyword-rule match; and if no full employee name occurs
as a substring (e.g. only a partial fragment), no salary verdict is
returned. -/
theorem claim_C1 (narr : String) :
    ((∃ e ∈ SALARY_NAME_MAP, ∃ nm ∈ e.2,
        substrB nm (upperS narr) = true ∧ ctxHit (upperS narr) = true) →
      ∃ e ∈ SALARY_NAME_MAP, ∃ nm ∈ e.2,
        substrB nm (upperS narr) = true ∧
        apply_rules (some narr) =
          (some "Salaries & Wages", some e.1, some ("Salary name: " ++ nm))) ∧
    ((∀ e ∈ SALARY_NAME_MAP, ∀ nm ∈ e.2, substrB nm (upperS narr) = false) →
      ∀ sub nm, apply_rules (some narr) ≠
        (some "Salaries & Wages", some sub, some ("Salary name: " ++ nm))) := by
  constructor
  · rintro ⟨⟨sub0, names0⟩, hmem0, nm0, hnm0, hsub0, hctx0⟩
    obtain ⟨s2, n2, hscan⟩ := salaryScan_some_of_hit hmem0 hnm0 hsub0 hctx0
    obtain ⟨names2, hmem2, hnm2, hsub2, _⟩ := salaryScan_sound hscan
    refine ⟨(s2, names2), hmem2, n2, hnm2, hsub2, ?_⟩
    simp [apply_rules, applyRulesGen, hscan]
  · intro hno sub nm heq
    cases hscan : salaryScan SALARY_NAME_MAP (upperS narr) with
    | some p =>
      obtain ⟨s2, n2⟩ := p
      obtain ⟨names2, hmem2, hnm2, hsub2, _⟩ := salaryScan_sound hscan
      have := hno (s2, names2) hmem2 n2 hnm2
      rw [hsub2] at this
      cases this
    | none =>
      cases hk : keywordSelect RULES (upperS narr) with
      | some r =>
        have hr := keywordSelect_mem hk
        have hmain := RULES_main_ne_salary r hr
        have hval : apply_rules (some narr) =
            (some r.main, some r.sub, some r.name) := by
          simp [apply_rules, applyRulesGen, hscan, hk]
        rw [hval] at heq
        injection heq with h1 h2
        injection h1 with h1'
        exact hmain h1'
      | none =>
        have hval : apply_rules (some narr) = (none, none, none) := by
          simp [apply_rules, applyRulesGen, hscan, hk]
        rw [hval] at heq
        injection heq with h1 h2
        exact Option.noConfusion h1

theorem claim_C1_witness :
    (∃ e ∈ SALARY_NAME_MAP, ∃ nm ∈ e.2,
       substrB nm (upperS "DASARI VAMSHI SALARY AMAZON") = true ∧
       apply_rules (some "DASARI VAMSHI SALARY AMAZON") =
         (some "Salaries & Wages", some e.1, some ("Salary name: " ++ nm))) ∧
    (∀ sub nm, apply_rules (some "DASARI SALARY AMAZON") ≠
       (some "Salaries & Wages", some sub, some ("Salary name: " ++ nm))) :=
  ⟨(claim_C1 "DASARI VAMSHI SALARY AMAZON").1
     ⟨("Back Office",
       ["DASARI VAMSHI", "DUSARI NARESH", "KARAN SINGH", "KOKI SRIHARI REDDY"]),
      by decide, "DASARI VAMSHI", by decide, by decide, by decide⟩,
   (claim_C1 "DASARI SALARY AMAZON").2 (by decide)⟩

/-- A rule one of whose `not` tokens occurs in the text never matches. -/
lemma vetoed_matchesB_false {r : Rule} {text : String}
    (h : ∃ t ∈ r.notKw, substrB t text = true) : matchesB r text = false := by
  obtain ⟨t, ht, hs⟩ := h
  have hany : (r.notKw.any fun tok => substrB tok text) = true :=
    List.any_eq_true.mpr ⟨t, ht, hs⟩
  unfold matchesB
  rw [hany]
  simp

/-- C3.  A rule with a `not` token occurring in the upper-cased narration is
never the selected rule — even if one of its `any` tokens also occurs —
and selection proceeds: whenever some rule of the list matches, a matching
rule is still selected. -/
theorem claim_C3 (rules : List Rule) (narr : String) (r : Rule)
    (hveto : ∃ t ∈ r.notKw, substrB t (upperS narr) = true) :
    keywordSelect rules (upperS narr) ≠ some r ∧
    (∀ r' ∈ rules, matchesB r' (upperS narr) = true →
      ∃ r'', keywordSelect rules (upperS narr) = some r'' ∧
        matchesB r'' (upperS narr) = true) := by
  have hm := vetoed_matchesB_false hveto
  constructor
  · intro h
    have := keywordSelect_matches h
    rw [hm] at this
    cases this
  · intro r' hr' hmatch
    cases hk : keywordSelect rules (upperS narr) with
    | none =>
      exfalso
      have hall := List.find?_eq_none.mp hk r'
        (by rw [sortRules, List.mem_insertionSort]; exact hr')
      exact hall hmatch
    | some r'' => exact ⟨r'', rfl, keywordSelect_matches hk⟩

/-- Demo rule with a `not` veto for the C3 witness. -/
def vetoDemoRule : Rule :=
  ⟨"Veto demo", 10, ["FOO"], ["BAR"], "Main A", "Sub A"⟩

/-- Demo rule matched after the vetoed one for the C3 witness. -/
def afterDemoRule : Rule :=
  ⟨"After demo", 99, ["BAR"], [], "Main B", "Sub B"⟩

theorem claim_C3_witness :
    keywordSelect [vetoDemoRule, afterDemoRule] (upperS "foobar") ≠
      some vetoDemoRule ∧
    keywordSelect [vetoDemoRule, afterDemoRule] (upperS "foobar") =
      some afterDemoRule :=
  ⟨(claim_C3 [vetoDemoRule, afterDemoRule] "foobar" vetoDemoRule
      ⟨"BAR", by decide, by decide⟩).1,
   by decide⟩

/-- C4.  For every narration — including `None` — both classifiers return
either the all-`None` triple or a fully populated verdict; `None` maps to
the all-`None` triple immediately. -/
theorem claim_C4 :
    (∀ (m : List (String × List String)) (rules : List Rule)
        (narr : Option String),
      applyRulesGen m rules narr = (none, none, none) ∨
      ∃ a b c, applyRulesGen m rules narr = (some a, some b, some c)) ∧
    (∀ m rules, applyRulesGen m rules none = (none, none, none)) ∧
    (∀ (rows : List DBRow) (narr : Option String),
      apply_rules_wrapper rows narr = (none, none, none) ∨
      ∃ a b c, apply_rules_wrapper rows narr = (some a, some b, some c)) ∧
    (∀ rows, apply_rules_wrapper rows none = (none, none, none)) := by
  refine ⟨?_, fun _ _ => rfl, ?_, fun _ => rfl⟩
  · intro m rules narr
    cases narr with
    | none => left; rfl
    | some s =>
      cases hsc : salaryScan m (upperS s) with
      | some p =>
        obtain ⟨sub, nm⟩ := p
        right
        exact ⟨"Salaries & Wages", sub, "Salary name: " ++ nm,
          by simp [applyRulesGen, hsc]⟩
      | none =>
        cases hk : keywordSelect rules (upperS s) with
        | some r =>
          right
          exact ⟨r.main, r.sub, r.name, by simp [applyRulesGen, hsc, hk]⟩
        | none => left; simp [applyRulesGen, hsc, hk]
  · intro rows narr
    cases narr with
    | none => left; rfl
    | some s =>
      cases hsc : salarySelect (salaryOf rows) (upperS s) with
      | some r =>
        right
        exact ⟨r.main, r.sub, r.name, by simp [apply_rules_wrapper, hsc]⟩
      | none =>
        cases hk : regularSelect (regularOf rows) (upperS s) with
        | some r =>
          right
          exact ⟨r.main, r.sub, r.name,
            by simp [apply_rules_wrapper, hsc, hk]⟩
        | none => left; simp [apply_rules_wrapper, hsc, hk]

/-! ## Claims about the database-backed wrapper (C9, C10) -/

lemma find?_skip_mid {α} (p : α → Bool) (l1 mid l2 : List α)
    (hmid : ∀ x ∈ mid, p x = false) :
    List.find? p (l1 ++ (mid ++ l2)) = List.find? p (l1 ++ l2) := by
  have hnone : List.find? p mid = none := by
    rw [List.find?_eq_none]
    intro x hx hc
    rw [hmid x hx] at hc
    cases hc
  rw [List.find?_append, List.find?_append, List.find?_append, hnone]
  cases List.find? p l1 <;> simp

lemma salaryOf_append (a b : List DBRow) :
    salaryOf (a ++ b) = salaryOf a ++ salaryOf b := by
  simp [salaryOf, loadedOf, List.filterMap_append]

lemma regularOf_append (a b : List DBRow) :
    regularOf (a ++ b) = regularOf a ++ regularOf b := by
  simp [regularOf, loadedOf, List.filterMap_append]

/-- If the row in the middle can match neither as a salary rule nor as a
regular rule, the wrapper ignores it entirely. -/
lemma wrapper_skip_row (pre post : List DBRow) (row : DBRow)
    (narr : Option String)
    (hsal : ∀ r ∈ salaryOf [row], ∀ text, salaryMatchB r text = false)
    (hreg : ∀ r ∈ regularOf [row], ∀ text, regularMatchB r text = false) :
    apply_rules_wrapper (pre ++ row :: post) narr =
      apply_rules_wrapper (pre ++ post) narr := by
  cases narr with
  | none => rfl
  | some s =>
    have hs : salarySelect (salaryOf (pre ++ row :: post)) (upperS s) =
        salarySelect (salaryOf (pre ++ post)) (upperS s) := by
      unfold salarySelect
      rw [show (row :: post) = [row] ++ post from rfl, salaryOf_append,
        salaryOf_append, salaryOf_append,
        find?_skip_mid _ _ _ _ (fun r hr => hsal r hr (upperS s))]
    have hR : regularSelect (regularOf (pre ++ row :: post)) (upperS s) =
        regularSelect (regularOf (pre ++ post)) (upperS s) := by
      unfold regularSelect
      rw [show (row :: post) = [row] ++ post from rfl, regularOf_append,
        regularOf_append, regularOf_append,
        find?_skip_mid _ _ _ _ (fun r hr => hreg r hr (upperS s))]
    simp only [apply_rules_wrapper, hs, hR]

/-- The single loaded rule a row can contribute. -/
lemma mem_loadedOf_single {row : DBRow} {r : LoadedRule}
    (h : r ∈ loadedOf [row]) :
    row.is_active = true ∧
    r = ⟨row.name, row.priority, row.keywords.getD [], row.main, row.sub⟩ := by
  unfold loadedOf loadRow at h
  by_cases hact : row.is_active
  · simp [hact] at h
    exact ⟨hact, h⟩
  · simp [hact] at h

/-- C9.  A stored rule whose keyword list fails to parse (modelled as
`keywords = none`, which `_load_rules_from_database` replaces by `[]`)
is invisible to classification: the wrapper returns the same verdict with
or without it, for every narration; in particular no exception-like
failure state is reachable and evaluation continues with the other
rules. -/
theorem claim_C9 (pre post : List DBRow) (row : DBRow) (narr : Option String)
    (hmal : row.keywords = none) :
    apply_rules_wrapper (pre ++ row :: post) narr =
      apply_rules_wrapper (pre ++ post) narr := by
  apply wrapper_skip_row
  · intro r hr text
    obtain ⟨_, hval⟩ := mem_loadedOf_single (List.mem_filter.mp hr).1
    rw [hval]
    simp [salaryMatchB, hmal]
  · intro r hr text
    obtain ⟨_, hval⟩ := mem_loadedOf_single (List.mem_filter.mp hr).1
    rw [hval]
    simp [regularMatchB, hmal]

/-- A well-formed rule for the C9 witness. -/
def milkRow : DBRow :=
  ⟨"Milk rule", 30, some ["MILK"], "Office Overhead", "Milk", true⟩

/-- A rule whose keywords JSON failed to parse, for the C9 witness. -/
def brokenRow : DBRow := ⟨"Broken rule", 10, none, "X", "Y", true⟩

theorem claim_C9_witness :
    apply_rules_wrapper [brokenRow, milkRow] (some "milk bill") =
      apply_rules_wrapper [milkRow] (some "milk bill") ∧
    apply_rules_wrapper [milkRow] (some "milk bill") =
      (some "Office Overhead", some "Milk", some "Milk rule") :=
  ⟨claim_C9 [] [milkRow] brokenRow (some "milk bill") rfl, by decide⟩

/-- C10.  A salary rule of the database-backed classifier matches only with
at least two parsed keywords — the first being the employee name, the
remainder the salary-context tokens — and a salary rule with fewer than
two keywords is invisible to classification for every narration. -/
theorem claim_C10 :
    (∀ (srules : List LoadedRule) (text : String) (r : LoadedRule),
        salarySelect srules text = some r →
        2 ≤ r.keywords.length ∧
        substrB (r.keywords.headD "") text = true ∧
        ∃ k ∈ r.keywords.tail, substrB k text = true) ∧
    (∀ (pre post : List DBRow) (row : DBRow) (narr : Option String),
        salaryNameB row.name = true → (row.keywords.getD []).length < 2 →
        apply_rules_wrapper (pre ++ row :: post) narr =
          apply_rules_wrapper (pre ++ post) narr) := by
  constructor
  · intro srules text r h
    unfold salarySelect at h
    have hp := List.find?_some h
    unfold salaryMatchB at hp
    rw [Bool.and_eq_true, Bool.and_eq_true] at hp
    obtain ⟨⟨h1, h2⟩, h3⟩ := hp
    exact ⟨of_decide_eq_true h1, h2, List.any_eq_true.mp h3⟩
  · intro pre post row narr hname hlen
    apply wrapper_skip_row
    · intro r hr text
      obtain ⟨_, hval⟩ := mem_loadedOf_single (List.mem_filter.mp hr).1
      rw [hval]
      unfold salaryMatchB
      have : ¬ (2 ≤ (row.keywords.getD []).length) := by omega
      simp [this]
    · intro r hr text
      exfalso
      have hmem := List.mem_filter.mp hr
      obtain ⟨_, hval⟩ := mem_loadedOf_single hmem.1
      have := hmem.2
      rw [hval] at this
      simp [hname] at this

/-- Demo salary rule (two keywords) for the C10 witness. -/
def demoSalaryRule : LoadedRule :=
  ⟨"Salary: BOB", 10, ["BOB", "SALARY"], "Salaries & Wages", "Ops Team"⟩

/-- Salary rule with a single keyword, for the C10 witness. -/
def shortSalaryRow : DBRow :=
  ⟨"Salary: SHORT", 5, some ["BOB"], "Salaries & Wages", "Ops Team", true⟩

theorem claim_C10_witness :
    (2 ≤ demoSalaryRule.keywords.length ∧
     substrB (demoSalaryRule.keywords.headD "") (upperS "bob salary") = true ∧
     ∃ k ∈ demoSalaryRule.keywords.tail,
       substrB k (upperS "bob salary") = true) ∧
    apply_rules_wrapper [shortSalaryRow, milkRow] (some "BOB SALARY MILK") =
      apply_rules_wrapper [milkRow] (some "BOB SALARY MILK") :=
  ⟨claim_C10.1 [demoSalaryRule] (upperS "bob salary") demoSalaryRule
     (by decide),
   claim_C10.2 [] [milkRow] shortSalaryRow (some "BOB SALARY MILK")
     (by decide) (by decide)⟩

/-! ## Claim C2: priority order of keyword rules -/

lemma find?_decomp {α} {p : α → Bool} {l : List α} {a : α}
    (h : l.find? p = some a) :
    ∃ l1 l2, l = l1 ++ a :: l2 ∧ ∀ x ∈ l1, p x = false := by
  induction l with
  | nil => cases h
  | cons b t ih =>
    by_cases hb : p b = true
    · rw [List.find?_cons_of_pos _ hb] at h
      injection h with h'
      exact ⟨[], t, by rw [h']; rfl, by intro x hx; cases hx⟩
    · rw [List.find?_cons_of_neg _ (by simp [hb])] at h
      obtain ⟨l1, l2, hl, hfalse⟩ := ih h
      refine ⟨b :: l1, l2, by rw [hl]; rfl, ?_⟩
      intro x hx
      rcases List.mem_cons.mp hx with rfl | hx'
      · exact Bool.eq_false_iff.mpr hb
      · exact hfalse x hx'

/-- `orderedInsert` splits the target list at the insertion point; all
passed-over elements have strictly smaller priority. -/
lemma orderedInsert_split (a : Rule) (l : List Rule) :
    ∃ u v, l.orderedInsert RuleLE a = u ++ a :: v ∧ l = u ++ v ∧
      ∀ x ∈ u, x.priority < a.priority := by
  induction l with
  | nil => exact ⟨[], [], rfl, rfl, by intro x hx; cases hx⟩
  | cons b t ih =>
    by_cases hab : RuleLE a b
    · refine ⟨[], b :: t, ?_, rfl, by intro x hx; cases hx⟩
      simp [List.orderedInsert, hab]
    · obtain ⟨u, v, h1, h2, h3⟩ := ih
      refine ⟨b :: u, v, ?_, by rw [h2]; rfl, ?_⟩
      · simp only [List.orderedInsert, if_neg hab, h1]
        rfl
      · intro x hx
        rcases List.mem_cons.mp hx with rfl | hx'
        · unfold RuleLE at hab; omega
        · exact h3 x hx'

/-- Filtering at one priority level commutes with the stable sort: the
relative order of equal-priority rules is preserved by
`sorted(RULES, key=priority)`. -/
lemma filter_sortRules_pri (p : Int) (l : List Rule) :
    (sortRules l).filter (fun r => decide (r.priority = p)) =
      l.filter (fun r => decide (r.priority = p)) := by
  induction l with
  | nil => rfl
  | cons a t ih =>
    obtain ⟨u, v, hins, huv, hu⟩ := orderedInsert_split a (sortRules t)
    have hsorteq : sortRules (a :: t) = u ++ a :: v := hins
    have hfuv : (sortRules t).filter (fun r => decide (r.priority = p)) =
        u.filter (fun r => decide (r.priority = p)) ++
        v.filter (fun r => decide (r.priority = p)) := by
      rw [huv, List.filter_append]
    by_cases hap : a.priority = p
    · have hu_empty : u.filter (fun r => decide (r.priority = p)) = [] := by
        rw [List.filter_eq_nil_iff]
        intro x hx hc
        have hc' := of_decide_eq_true hc
        have := hu x hx
        omega
      have hcons_v : (a :: v).filter (fun r => decide (r.priority = p)) =
          a :: v.filter (fun r => decide (r.priority = p)) := by
        simp [List.filter_cons, hap]
      have hcons_t : (a :: t).filter (fun r => decide (r.priority = p)) =
          a :: t.filter (fun r => decide (r.priority = p)) := by
        simp [List.filter_cons, hap]
      rw [hsorteq, List.filter_append, hcons_v, hcons_t, hu_empty,
        List.nil_append, ← ih, hfuv, hu_empty, List.nil_append]
    · have hcons_v : (a :: v).filter (fun r => decide (r.priority = p)) =
          v.filter (fun r => decide (r.priority = p)) := by
        simp [List.filter_cons, hap]
      have hcons_t : (a :: t).filter (fun r => decide (r.priority = p)) =
          t.filter (fun r => decide (r.priority = p)) := by
        simp [List.filter_cons, hap]
      rw [hsorteq, List.filter_append, hcons_v, hcons_t, ← ih, hfuv]

lemma not_mem_of_all_false {α} {p : α → Bool} {l : List α} {x : α}
    (hall : ∀ y ∈ l, p y = false) (hx : p x = true) : x ∉ l := by
  intro hm
  rw [hall x hm] at hx
  cases hx

/-- In `A ++ x :: B`, the element at position `A.length` is `x`. -/
lemma getElem_boundary {α} (A B : List α) (x : α)
    (h : A.length < (A ++ x :: B).length) : (A ++ x :: B)[A.length] = x := by
  rw [List.getElem_append_right (Nat.le_refl _)]
  simp

/-- Two decompositions of a list at the same first occurrence have equal
prefixes. -/
lemma first_occ_eq {α} {L A1 B1 A2 B2 : List α} {x : α}
    (h1 : L = A1 ++ x :: B1) (h2 : L = A2 ++ x :: B2)
    (nx1 : x ∉ A1) (nx2 : x ∉ A2) : A1 = A2 := by
  subst h1
  have hkey : ∀ (A B C D : List α), A ++ x :: B = C ++ x :: D →
      A.length < C.length → x ∈ C := by
    intro A B C D e hlt
    have hb : A.length < ((A ++ x :: B).take C.length).length := by
      rw [List.length_take]
      have : A.length < (A ++ x :: B).length := by simp
      omega
    have heq' : ((A ++ x :: B).take C.length)[A.length] = x := by
      rw [List.getElem_take]
      exact getElem_boundary A B x (by simp)
    have hmem := List.getElem_mem hb
    rw [heq'] at hmem
    rw [e, List.take_left] at hmem
    exact hmem
  rcases Nat.lt_trichotomy A1.length A2.length with hlt | heq | hgt
  · exact absurd (hkey A1 B1 A2 B2 h2 hlt) nx2
  · exact (List.append_inj h2 heq).1
  · exact absurd (hkey A2 B2 A1 B1 h2.symm hgt) nx1

/-- Split a list around two positions `i < j`, tracking where the prefix
and middle elements come from. -/
lemma decomp_two {α} (l : List α) {i j : Nat} (hij : i < j)
    (hj : j < l.length) (hi : i < l.length) :
    ∃ o1 o2 o3,
      l = o1 ++ l[i] :: (o2 ++ l[j] :: o3) ∧
      (∀ x ∈ o1, ∃ k, ∃ hk : k < l.length, k < i ∧ l[k] = x) ∧
      (∀ x ∈ o2, ∃ k, ∃ hk : k < l.length, i < k ∧ k < j ∧ l[k] = x) := by
  have e1 : l.drop (i + 1) =
      (l.drop (i + 1)).take (j - i - 1) ++ l[j] :: l.drop (j + 1) := by
    conv_lhs => rw [← List.take_append_drop (j - i - 1) (l.drop (i + 1))]
    rw [List.drop_drop, show i + 1 + (j - i - 1) = j from by omega,
      List.drop_eq_getElem_cons hj]
  refine ⟨l.take i, (l.drop (i + 1)).take (j - i - 1), l.drop (j + 1),
    ?_, ?_, ?_⟩
  · conv_lhs => rw [← List.take_append_drop i l,
      List.drop_eq_getElem_cons hi, e1]
  · intro x hx
    obtain ⟨n, hn, hnx⟩ := List.mem_iff_getElem.mp hx
    have hni : n < i := by
      have := hn
      rw [List.length_take] at this
      omega
    have hnl : n < l.length := Nat.lt_trans hni hi
    refine ⟨n, hnl, hni, ?_⟩
    rw [← hnx, List.getElem_take]
  · intro x hx
    obtain ⟨n, hn, hnx⟩ := List.mem_iff_getElem.mp hx
    have hnb : n < j - i - 1 := by
      have := hn
      rw [List.length_take] at this
      omega
    have hnl : i + 1 + n < l.length := by omega
    refine ⟨i + 1 + n, hnl, by omega, by omega, ?_⟩
    rw [← hnx, List.getElem_take, List.getElem_drop]

/-- C2 (amended).  If exactly two rules of the list match the upper-cased
narration (positions `i` and `j`), no salary-map entry fires, and rule `i`
either has strictly lower priority than rule `j` or ties with it while
appearing earlier, then the classifier returns rule `i`'s verdict: among
the matching rules, the stable priority sort makes the lower-priority
(or, on ties, the earlier-inserted) rule win. -/
theorem claim_C2 (m : List (String × List String)) (rules : List Rule)
    (narr : String) (i j : Nat) (hi : i < rules.length)
    (hj : j < rules.length)
    (h1 : matchesB rules[i] (upperS narr) = true)
    (h2 : matchesB rules[j] (upperS narr) = true)
    (hlt : rules[i].priority < rules[j].priority ∨
      (rules[i].priority = rules[j].priority ∧ i < j))
    (hexcl : ∀ k, (hk : k < rules.length) →
      matchesB rules[k] (upperS narr) = true → k = i ∨ k = j)
    (hsal : salaryScan m (upperS narr) = none) :
    applyRulesGen m rules (some narr) =
      (some rules[i].main, some rules[i].sub, some rules[i].name) := by
  set text := upperS narr with htext
  cases hk : keywordSelect rules text with
  | none =>
    exfalso
    have hall := List.find?_eq_none.mp hk rules[j]
      (by rw [sortRules, List.mem_insertionSort]; exact List.getElem_mem hj)
    exact hall h2
  | some a =>
    have hamem : a ∈ rules := keywordSelect_mem hk
    have hamatch : matchesB a text = true := keywordSelect_matches hk
    obtain ⟨k, hkl, hka⟩ := List.mem_iff_getElem.mp hamem
    have hkij := hexcl k hkl (by rw [hka]; exact hamatch)
    have haij : a = rules[i] ∨ a = rules[j] := by
      rcases hkij with rfl | rfl
      · left; exact hka.symm
      · right; exact hka.symm
    have hmain : a = rules[i] := by
      rcases haij with h | h
      · exact h
      · subst h
        by_cases hij_eq : rules[i] = rules[j]
        · exact hij_eq.symm
        · exfalso
          unfold keywordSelect at hk
          obtain ⟨s1, s2, hdecomp, hs1⟩ := find?_decomp hk
          rcases hlt with hstrict | ⟨heqp, hij⟩
          · -- strict priority: sortedness of the sorted list would be violated
            have hsorted := List.sorted_insertionSort RuleLE rules
            rw [show List.insertionSort RuleLE rules = sortRules rules from
              rfl, hdecomp] at hsorted
            have hpair := (List.pairwise_append.mp hsorted).2.1
            have hri : rules[i] ∈ s2 := by
              have hmem' : rules[i] ∈ s1 ++ rules[j] :: s2 := by
                rw [← hdecomp, sortRules, List.mem_insertionSort]
                exact List.getElem_mem hi
              rcases List.mem_append.mp hmem' with hin1 | hin2
              · exact absurd hin1 (not_mem_of_all_false hs1 h1)
              · rcases List.mem_cons.mp hin2 with heq' | h'
                · exact absurd heq' hij_eq
                · exact h'
            have := (List.pairwise_cons.mp hpair).1 rules[i] hri
            unfold RuleLE at this
            omega
          · -- equal priority: stability of the sort would be violated
            set p := rules[i].priority with hp
            obtain ⟨o1, o2, o3, hodecomp, ho1, ho2⟩ :=
              decomp_two rules hij hj hi
            have hr2o1 : rules[j] ∉ o1 := by
              intro hmem'
              obtain ⟨k', hk', hki, hkval⟩ := ho1 rules[j] hmem'
              rcases hexcl k' hk' (by rw [hkval]; exact h2) with rfl | rfl
              · omega
              · omega
            have hr2o2 : rules[j] ∉ o2 := by
              intro hmem'
              obtain ⟨k', hk', hki, hkj, hkval⟩ := ho2 rules[j] hmem'
              rcases hexcl k' hk' (by rw [hkval]; exact h2) with rfl | rfl
              · omega
              · omega
            have hcons_i : ∀ l' : List Rule,
                (rules[i] :: l').filter (fun r => decide (r.priority = p)) =
                rules[i] :: l'.filter (fun r => decide (r.priority = p)) := by
              intro l'
              simp [List.filter_cons]
            have hcons_j : ∀ l' : List Rule,
                (rules[j] :: l').filter (fun r => decide (r.priority = p)) =
                rules[j] :: l'.filter (fun r => decide (r.priority = p)) := by
              intro l'
              simp [List.filter_cons, ← heqp]
            have hA : rules.filter (fun r => decide (r.priority = p)) =
                (o1.filter (fun r => decide (r.priority = p)) ++ rules[i] ::
                  o2.filter (fun r => decide (r.priority = p))) ++ rules[j] ::
                  o3.filter (fun r => decide (r.priority = p)) := by
              conv_lhs => rw [hodecomp]
              rw [List.filter_append, hcons_i, List.filter_append, hcons_j]
              simp [List.append_assoc]
            have hB : rules.filter (fun r => decide (r.priority = p)) =
                s1.filter (fun r => decide (r.priority = p)) ++ rules[j] ::
                  s2.filter (fun r => decide (r.priority = p)) := by
              rw [← filter_sortRules_pri p rules]
              conv_lhs => rw [hdecomp]
              rw [List.filter_append, hcons_j]
            have heqL := first_occ_eq hA hB ?_ ?_
            · have hri_in : rules[i] ∈
                  s1.filter (fun r => decide (r.priority = p)) := by
                rw [← heqL]
                exact List.mem_append.mpr (Or.inr (List.mem_cons_self _ _))
              exact not_mem_of_all_false hs1 h1
                (List.mem_filter.mp hri_in).1
            · intro hmem'
              rcases List.mem_append.mp hmem' with hin1 | hin2
              · exact hr2o1 (List.mem_filter.mp hin1).1
              · rcases List.mem_cons.mp hin2 with heq' | h'
                · exact hij_eq heq'.symm
                · exact hr2o2 (List.mem_filter.mp h').1
            · intro hmem'
              exact not_mem_of_all_false hs1 h2
                (List.mem_filter.mp hmem').1
    subst hmain
    simp [applyRulesGen, hsal, hk]

/-- C2 counterexample to the claim as stated: on
`"VET INDIA AMAZON"` both the `Amazon` rule (priority 20) and the
`Vet Doctor` rule (priority 30) match, yet `classify` does not return the
Amazon verdict — the third matching rule `Vet India Pharma` (priority 10)
wins instead. -/
theorem claim_C2_counterexample :
    (mkR "Amazon" 20 ["AMAZON"] "Grooming Inventory" "Amazon") ∈ RULES ∧
    (mkR "Vet Doctor" 30 ["DRKARTHEEK", "VET", "DOCTOR", "KARTHEEK"]
      "Admin Expenses" "Veterinary Doctor Charges") ∈ RULES ∧
    matchesB (mkR "Amazon" 20 ["AMAZON"] "Grooming Inventory" "Amazon")
      (upperS "VET INDIA AMAZON") = true ∧
    matchesB (mkR "Vet Doctor" 30 ["DRKARTHEEK", "VET", "DOCTOR", "KARTHEEK"]
      "Admin Expenses" "Veterinary Doctor Charges")
      (upperS "VET INDIA AMAZON") = true ∧
    ((20 : Int) < 30) ∧
    apply_rules (some "VET INDIA AMAZON") ≠
      (some "Grooming Inventory", some "Amazon", some "Amazon") ∧
    apply_rules (some "VET INDIA AMAZON") =
      (some "Grooming Inventory", some "Vet India Pharma (VIP)",
       some "Vet India Pharma") := by decide

/-- Lower-priority matching rule for the C2 witness. -/
def loPriRule : Rule := mkR "Lo" 20 ["FOO"] "Main Lo" "Sub Lo"

/-- Higher-priority matching rule for the C2 witness. -/
def hiPriRule : Rule := mkR "Hi" 30 ["BAR"] "Main Hi" "Sub Hi"

theorem claim_C2_witness :
    applyRulesGen [] [loPriRule, hiPriRule] (some "FOOBAR") =
      (some "Main Lo", some "Sub Lo", some "Lo") :=
  claim_C2 [] [loPriRule, hiPriRule] "FOOBAR" 0 1 (by decide) (by decide)
    (by decide) (by decide) (Or.inl (by decide))
    (fun k hk _ => by
      simp only [List.length_cons, List.length_nil] at hk
      omega) rfl

/-! ## Claim C5: idempotence of the normalizer -/

/-- Every word produced by the splitter is nonempty and whitespace-free. -/
lemma fieldsAux_good (l : List Char) :
    ∀ acc, (∀ c ∈ acc, isWsChar c = false) →
    ∀ w ∈ fieldsAux l acc, w ≠ [] ∧ ∀ c ∈ w, isWsChar c = false := by
  induction l with
  | nil =>
    intro acc hacc w hw
    simp only [fieldsAux] at hw
    by_cases hemp : acc.isEmpty
    · rw [if_pos hemp] at hw
      cases hw
    · rw [if_neg hemp] at hw
      rcases List.mem_singleton.mp hw with rfl
      refine ⟨?_, ?_⟩
      · intro hq
        rw [List.reverse_eq_nil_iff] at hq
        rw [hq] at hemp
        exact hemp rfl
      · intro c hc
        exact hacc c (List.mem_reverse.mp hc)
  | cons c cs ih =>
    intro acc hacc w hw
    simp only [fieldsAux] at hw
    by_cases hws : isWsChar c = true
    · rw [if_pos hws] at hw
      by_cases hemp : acc.isEmpty
      · rw [if_pos hemp] at hw
        exact ih [] (by intro x hx; cases hx) w hw
      · rw [if_neg hemp] at hw
        rcases List.mem_cons.mp hw with rfl | hw'
        · refine ⟨?_, ?_⟩
          · intro hq
            rw [List.reverse_eq_nil_iff] at hq
            rw [hq] at hemp
            exact hemp rfl
          · intro x hx
            exact hacc x (List.mem_reverse.mp hx)
        · exact ih [] (by intro x hx; cases hx) w hw'
    · rw [if_neg hws] at hw
      refine ih (c :: acc) ?_ w hw
      intro x hx
      rcases List.mem_cons.mp hx with rfl | hx'
      · exact Bool.eq_false_iff.mpr hws
      · exact hacc x hx'

/-- Every character of a split word comes from the accumulator or the
input. -/
lemma fieldsAux_chars (l : List Char) :
    ∀ acc, ∀ w ∈ fieldsAux l acc, ∀ c ∈ w, c ∈ acc ∨ c ∈ l := by
  induction l with
  | nil =>
    intro acc w hw c hc
    simp only [fieldsAux] at hw
    by_cases hemp : acc.isEmpty
    · rw [if_pos hemp] at hw
      cases hw
    · rw [if_neg hemp] at hw
      rcases List.mem_singleton.mp hw with rfl
      exact Or.inl (List.mem_reverse.mp hc)
  | cons b bs ih =>
    intro acc w hw c hc
    simp only [fieldsAux] at hw
    by_cases hws : isWsChar b = true
    · rw [if_pos hws] at hw
      by_cases hemp : acc.isEmpty
      · rw [if_pos hemp] at hw
        rcases ih [] w hw c hc with h0 | h0
        · cases h0
        · exact Or.inr (List.mem_cons_of_mem _ h0)
      · rw [if_neg hemp] at hw
        rcases List.mem_cons.mp hw with rfl | hw'
        · exact Or.inl (List.mem_reverse.mp hc)
        · rcases ih [] w hw' c hc with h0 | h0
          · cases h0
          · exact Or.inr (List.mem_cons_of_mem _ h0)
    · rw [if_neg hws] at hw
      rcases ih (b :: acc) w hw c hc with h0 | h0
      · rcases List.mem_cons.mp h0 with rfl | h1
        · exact Or.inr (List.mem_cons_self _ _)
        · exact Or.inl h1
      · exact Or.inr (List.mem_cons_of_mem _ h0)

/-- The splitter consumes a whitespace-free block into the accumulator. -/
lemma fieldsAux_append (w : List Char) :
    ∀ (acc l : List Char), (∀ c ∈ w, isWsChar c = false) →
    fieldsAux (w ++ l) acc = fieldsAux l (w.reverse ++ acc) := by
  induction w with
  | nil => intro acc l _; simp
  | cons c w' ih =>
    intro acc l hw
    have hc : isWsChar c = false := hw c (List.mem_cons_self _ _)
    show fieldsAux (c :: (w' ++ l)) acc = _
    simp only [fieldsAux, hc]
    rw [if_neg (by simp [hc])]
    rw [ih (c :: acc) l (fun x hx => hw x (List.mem_cons_of_mem _ hx))]
    simp [List.append_assoc]

/-- Splitting a space-joined list of nonempty whitespace-free words
recovers exactly those words. -/
lemma wsFields_joinSp (F : List (List Char))
    (hF : ∀ w ∈ F, w ≠ [] ∧ ∀ c ∈ w, isWsChar c = false) :
    wsFields (joinSp F) = F := by
  induction F with
  | nil => rfl
  | cons w F' ih =>
    obtain ⟨hne, hnws⟩ := hF w (List.mem_cons_self _ _)
    have hrevne : w.reverse.isEmpty = false := by
      cases hrev : w.reverse with
      | nil => exact absurd (List.reverse_eq_nil_iff.mp hrev) hne
      | cons x xs => rfl
    cases F' with
    | nil =>
      show wsFields (joinSp [w]) = [w]
      unfold wsFields
      rw [show joinSp [w] = w ++ [] from by simp [joinSp],
        fieldsAux_append w [] [] hnws]
      simp only [fieldsAux, List.append_nil, hrevne]
      rw [if_neg (by simp [hrevne])]
      simp
    | cons w2 ws =>
      show wsFields (w ++ ' ' :: joinSp (w2 :: ws)) = w :: w2 :: ws
      unfold wsFields
      rw [fieldsAux_append w [] (' ' :: joinSp (w2 :: ws)) hnws]
      simp only [fieldsAux, List.append_nil, hrevne]
      rw [if_pos (by decide), if_neg (by simp [hrevne])]
      rw [List.reverse_reverse]
      have := ih (fun v hv => hF v (List.mem_cons_of_mem _ hv))
      unfold wsFields at this
      rw [this]

/-- Characters of the joined word list are word characters or the space. -/
lemma mem_joinSp (F : List (List Char)) (c : Char) (hc : c ∈ joinSp F) :
    (∃ w ∈ F, c ∈ w) ∨ c = ' ' := by
  induction F with
  | nil => cases hc
  | cons w F' ih =>
    cases F' with
    | nil =>
      exact Or.inl ⟨w, List.mem_cons_self _ _, hc⟩
    | cons w2 ws =>
      have hc' : c ∈ w ++ ' ' :: joinSp (w2 :: ws) := hc
      rcases List.mem_append.mp hc' with h1 | h2
      · exact Or.inl ⟨w, List.mem_cons_self _ _, h1⟩
      · rcases List.mem_cons.mp h2 with rfl | h3
        · exact Or.inr rfl
        · rcases ih h3 with ⟨v, hv, hcv⟩ | hsp
          · exact Or.inl ⟨v, List.mem_cons_of_mem _ hv, hcv⟩
          · exact Or.inr hsp

/-- C5 (amended).  On inputs made only of allowed characters
(`[A-Za-z0-9 &:/._-]`) the normalizer is idempotent.  (On arbitrary
inputs it is not: stripping a disallowed character can expose new
leading/trailing or doubled spaces — see the counterexample.) -/
theorem claim_C5 (s : String) (h : ∀ c ∈ s.data, isAllowedChar c = true) :
    normalize_desc (normalize_desc s) = normalize_desc s := by
  have hF : ∀ w ∈ wsFields s.data, w ≠ [] ∧ ∀ c ∈ w, isWsChar c = false :=
    fieldsAux_good s.data [] (by intro c hc; cases hc)
  have hJallowed : ∀ c ∈ joinSp (wsFields s.data), isAllowedChar c = true := by
    intro c hc
    rcases mem_joinSp _ c hc with ⟨w, hw, hcw⟩ | rfl
    · rcases fieldsAux_chars s.data [] w hw c hcw with h0 | h0
      · cases h0
      · exact h c h0
    · decide
  have hfilter : (joinSp (wsFields s.data)).filter isAllowedChar =
      joinSp (wsFields s.data) :=
    List.filter_eq_self.mpr hJallowed
  have h1 : normalize_desc s = ⟨joinSp (wsFields s.data)⟩ := by
    unfold normalize_desc
    rw [hfilter]
  rw [h1]
  show (⟨(joinSp (wsFields (joinSp (wsFields s.data)))).filter
    isAllowedChar⟩ : String) = _
  rw [wsFields_joinSp _ hF, hfilter]

/-- C5 counterexample to idempotence as stated: stripping `@` from
`"@ A"` leaves a leading space, which a second normalization removes. -/
theorem claim_C5_counterexample :
    normalize_desc (normalize_desc "@ A") ≠ normalize_desc "@ A" ∧
    normalize_desc "@ A" = " A" ∧
    normalize_desc (normalize_desc "@ A") = "A" := by decide

theorem claim_C5_witness :
    normalize_desc (normalize_desc "A  B") = normalize_desc "A  B" ∧
    normalize_desc "A  B" = "A B" :=
  ⟨claim_C5 "A  B" (by decide), by decide⟩

/-! ## Claim C8: pattern keys -/

/-- C8 (amended).  `_create_pattern_key` (enhanced/simple learners) is a
pure function whose result is either the description-token fallback key
or a vendor-derived key; a vendor-derived key is never one of the generic
transaction-type tokens and its vendor text has stripped length > 2.
(It may, however, be purely numeric — see the counterexample.) -/
theorem claim_C8 (d : String) (v : Option String) :
    createPatternKeyE d v = descKeyE d ∨
    (∃ s, v = some s ∧ createPatternKeyE d v = stripS (upperS s) ∧
      genericTokens.contains (stripS (upperS s)) = false ∧
      2 < (stripS s).length) := by
  cases v with
  | none => left; rfl
  | some s =>
    cases hlen : decide (2 < (stripS s).length) with
    | false =>
      left
      unfold createPatternKeyE
      simp [hlen]
    | true =>
      cases hgen : genericTokens.contains (stripS (upperS s)) with
      | true =>
        left
        have hgen' : stripS (upperS s) ∈ genericTokens := by simpa using hgen
        unfold createPatternKeyE
        simp [hlen, hgen']
      | false =>
        right
        have hgen' : stripS (upperS s) ∉ genericTokens := by simpa using hgen
        refine ⟨s, rfl, ?_, hgen, of_decide_eq_true hlen⟩
        unfold createPatternKeyE
        simp [hlen, hgen']

/-- C8 counterexample: a purely numeric vendor text passes the filter and
becomes the pattern key verbatim (there is no numeric filter on vendor
text), contradicting the claim that vendor-derived keys are never purely
numeric. -/
theorem claim_C8_counterexample :
    createPatternKeyE "KIBBLE ORDER" (some "123") = "123" ∧
    isDigitStr "123" = true ∧
    descKeyE "KIBBLE ORDER" = "KIBBLE ORDER" := by decide

/-! ## Claim C6: priority of learned rules -/

lemma genRulesE_priority (minF : Nat) (minC : ℚ) (existing : List String) :
    ∀ gs, ∀ cr ∈ genRulesE minF minC existing gs,
      cr.priority = calcPriority cr.frequency cr.confidence := by
  intro gs
  induction gs with
  | nil => intro cr h; cases h
  | cons kg rest ih =>
    intro cr h
    obtain ⟨k, g⟩ := kg
    unfold genRulesE at h
    by_cases hth : minF ≤ g.members.length ∧ minC ≤ avgConf g.members
    · rw [if_pos hth] at h
      by_cases hemp : (newKeywords existing g).isEmpty
      · rw [if_pos hemp] at h
        exact ih cr h
      · rw [if_neg hemp] at h
        rcases List.mem_cons.mp h with rfl | h'
        · rfl
        · exact ih cr h'
    · rw [if_neg hth] at h
      exact ih cr h

lemma genRulesB_priority (minF : Nat) (minC : ℚ) (existing : List String) :
    ∀ gs, ∀ cr ∈ genRulesB minF minC existing gs, cr.priority = 50 := by
  intro gs
  induction gs with
  | nil => intro cr h; cases h
  | cons kg rest ih =>
    intro cr h
    obtain ⟨k, g⟩ := kg
    unfold genRulesB at h
    by_cases hth : minF ≤ g.members.length ∧ minC ≤ avgConf g.members
    · rw [if_pos hth] at h
      by_cases hemp : (newKeywords existing g).isEmpty
      · rw [if_pos hemp] at h
        exact ih cr h
      · rw [if_neg hemp] at h
        rcases List.mem_cons.mp h with rfl | h'
        · rfl
        · exact ih cr h'
    · rw [if_neg hth] at h
      exact ih cr h

/-- C6 (amended).  Candidate rules emitted by the enhanced (and simple)
learner carry the step-function priority of their own frequency and
average confidence (10 / 20 / 30 / 50); the basic `learn_rules.py`
learner instead always assigns priority 50. -/
theorem claim_C6 :
    (∀ (txs : List LTx) (minF : Nat) (minC : ℚ) (existing : List String)
        (maxR : Nat), ∀ cr ∈ learnEnhanced txs minF minC existing maxR,
        cr.priority =
          (if 10 ≤ cr.frequency ∧ (9 : ℚ)/10 ≤ cr.confidence then 10
           else if 5 ≤ cr.frequency ∧ (8 : ℚ)/10 ≤ cr.confidence then 20
           else if 3 ≤ cr.frequency ∧ (7 : ℚ)/10 ≤ cr.confidence then 30
           else 50)) ∧
    (∀ (txs : List LTx) (minF : Nat) (minC : ℚ) (existing : List String),
        ∀ cr ∈ learnBasic txs minF minC existing, cr.priority = 50) := by
  constructor
  · intro txs minF minC existing maxR cr h
    have hmem : cr ∈ sortCands
        (genRulesE minF minC existing (groupTx keyE mkGroupE txs [])) :=
      List.take_subset maxR _ h
    rw [sortCands, List.mem_insertionSort] at hmem
    have := genRulesE_priority minF minC existing _ cr hmem
    rw [this]
    rfl
  · intro txs minF minC existing cr h
    have hmem : cr ∈
        genRulesB minF minC existing (groupTx keyB mkGroupB txs []) := by
      rw [learnBasic, sortCands, List.mem_insertionSort] at h
      exact h
    exact genRulesB_priority minF minC existing _ cr hmem

/-- Default candidate used only to take heads of computed lists. -/
def dummyCand : CandidateRule := ⟨"", 0, [], "", "", 0, 0⟩

/-- Ten identical verified transactions with confidence 0.95. -/
def c6corpus : List LTx :=
  List.replicate 10
    ⟨"STAFF WELFARE LUNCH", some "CANTEENCO", some "Office Overhead",
     some "Staff Welfare", 19/20⟩

/-- C6 counterexample: the basic learner (`learn_rules.py`, and the inline
learner in `app.py`) assigns priority 50 to a pattern with frequency 10
and confidence 0.95, where the claim demands priority 10. -/
theorem claim_C6_counterexample :
    (learnBasic c6corpus 2 (8/10) []).length = 1 ∧
    ((learnBasic c6corpus 2 (8/10) []).headD dummyCand).priority = 50 ∧
    10 ≤ ((learnBasic c6corpus 2 (8/10) []).headD dummyCand).frequency ∧
    (9 : ℚ)/10 ≤ ((learnBasic c6corpus 2 (8/10) []).headD dummyCand).confidence ∧
    ((learnBasic c6corpus 2 (8/10) []).headD dummyCand).priority ≠ 10 := by
  with_unfolding_all decide

/-- Three identical Swiggy transactions (the spec's concrete scenario 3). -/
def swCorpus : List LTx :=
  List.replicate 3
    ⟨"UPI SWIGGYINSTAMART ORDER", some "SWIGGYINSTAMART",
     some "Office Overhead", some "Swiggy", 19/20⟩

theorem claim_C6_witness :
    ((learnEnhanced swCorpus 2 (8/10) [] 50).headD dummyCand).priority =
      (if 10 ≤ ((learnEnhanced swCorpus 2 (8/10) [] 50).headD
            dummyCand).frequency ∧
          (9 : ℚ)/10 ≤ ((learnEnhanced swCorpus 2 (8/10) [] 50).headD
            dummyCand).confidence then 10
       else if 5 ≤ ((learnEnhanced swCorpus 2 (8/10) [] 50).headD
            dummyCand).frequency ∧
          (8 : ℚ)/10 ≤ ((learnEnhanced swCorpus 2 (8/10) [] 50).headD
            dummyCand).confidence then 20
       else if 3 ≤ ((learnEnhanced swCorpus 2 (8/10) [] 50).headD
            dummyCand).frequency ∧
          (7 : ℚ)/10 ≤ ((learnEnhanced swCorpus 2 (8/10) [] 50).headD
            dummyCand).confidence then 30
       else 50) ∧
    ((learnBasic c6corpus 2 (8/10) []).headD dummyCand).priority = 50 :=
  ⟨claim_C6.1 swCorpus 2 (8/10) [] 50 _ (by with_unfolding_all decide),
   claim_C6.2 c6corpus 2 (8/10) [] _ (by with_unfolding_all decide)⟩

/-! ## Claim C7: idempotence of learning at the keyword-novelty boundary -/

lemma insertGroup_keywords (k : String) (tx : LTx) (mk : LTx → PGroup) :
    ∀ gs, ∀ kg ∈ insertGroup k tx mk gs,
      (∃ kg0 ∈ gs, kg0.2.keywords = kg.2.keywords) ∨
      kg.2.keywords = (mk tx).keywords := by
  intro gs
  induction gs with
  | nil =>
    intro kg h
    rcases List.mem_singleton.mp h with rfl
    exact Or.inr rfl
  | cons e rest ih =>
    intro kg h
    obtain ⟨k', g⟩ := e
    unfold insertGroup at h
    by_cases hk : k' = k
    · rw [if_pos hk] at h
      rcases List.mem_cons.mp h with rfl | h'
      · exact Or.inl ⟨(k', g), List.mem_cons_self _ _, rfl⟩
      · exact Or.inl ⟨kg, List.mem_cons_of_mem _ h', rfl⟩
    · rw [if_neg hk] at h
      rcases List.mem_cons.mp h with rfl | h'
      · exact Or.inl ⟨(k', g), List.mem_cons_self _ _, rfl⟩
      · rcases ih kg h' with ⟨kg0, hkg0, he⟩ | he
        · exact Or.inl ⟨kg0, List.mem_cons_of_mem _ hkg0, he⟩
        · exact Or.inr he

/-- Every group's extracted-keyword list originates from a prior group or
from the group-creating transaction. -/
lemma groupTx_keywords (keyFn : LTx → String) (mk : LTx → PGroup) :
    ∀ (txs : List LTx) (gs : List (String × PGroup)),
      ∀ kg ∈ groupTx keyFn mk txs gs,
        (∃ kg0 ∈ gs, kg0.2.keywords = kg.2.keywords) ∨
        (∃ tx ∈ txs, (mk tx).keywords = kg.2.keywords) := by
  intro txs
  induction txs with
  | nil => intro gs kg h; exact Or.inl ⟨kg, h, rfl⟩
  | cons tx txs' ih =>
    intro gs kg h
    unfold groupTx at h
    by_cases hcat : (truthyS tx.main_category && truthyS tx.sub_category)
      = true
    · rw [if_pos hcat] at h
      rcases ih (insertGroup (keyFn tx) tx mk gs) kg h with hold | hnew
      · obtain ⟨kg1, hkg1, he1⟩ := hold
        rcases insertGroup_keywords (keyFn tx) tx mk gs kg1 hkg1 with
          ⟨kg0, hkg0, he0⟩ | he0
        · exact Or.inl ⟨kg0, hkg0, he0.trans he1⟩
        · exact Or.inr ⟨tx, List.mem_cons_self _ _, he0 ▸ he1⟩
      · obtain ⟨tx0, htx0, he0⟩ := hnew
        exact Or.inr ⟨tx0, List.mem_cons_of_mem _ htx0, he0⟩
    · rw [if_neg hcat] at h
      rcases ih gs kg h with hold | hnew
      · exact Or.inl hold
      · obtain ⟨tx0, htx0, he0⟩ := hnew
        exact Or.inr ⟨tx0, List.mem_cons_of_mem _ htx0, he0⟩

lemma genRulesE_nil (minF : Nat) (minC : ℚ) (existing : List String) :
    ∀ gs, (∀ kg ∈ gs, newKeywords existing kg.2 = []) →
      genRulesE minF minC existing gs = [] := by
  intro gs
  induction gs with
  | nil => intro _; rfl
  | cons kg rest ih =>
    intro hall
    obtain ⟨k, g⟩ := kg
    unfold genRulesE
    have hnk : newKeywords existing g = [] :=
      hall (k, g) (List.mem_cons_self _ _)
    have hrest := ih fun kg' h' => hall kg' (List.mem_cons_of_mem _ h')
    by_cases hth : minF ≤ g.members.length ∧ minC ≤ avgConf g.members
    · rw [if_pos hth, hnk]
      simpa using hrest
    · rw [if_neg hth]
      exact hrest

/-- C7 (amended).  Re-running the learner with an `existing_keywords` set
that covers every keyword *extractable* from the corpus yields zero
candidates.  (Covering merely the keywords of previously emitted rules is
not enough, because each rule keeps only the first three novel keywords —
see the counterexample.) -/
theorem claim_C7 (txs : List LTx) (minF : Nat) (minC : ℚ)
    (existing : List String) (maxR : Nat)
    (hcover : ∀ tx ∈ txs,
      ∀ kw ∈ extractKeywordsE tx.normalized_desc tx.vendor_text,
        existing.contains kw = true) :
    learnEnhanced txs minF minC existing maxR = [] := by
  have hgen : genRulesE minF minC existing
      (groupTx keyE mkGroupE txs []) = [] := by
    apply genRulesE_nil
    intro kg hkg
    rcases groupTx_keywords keyE mkGroupE txs [] kg hkg with
      ⟨kg0, hkg0, _⟩ | ⟨tx, htx, he⟩
    · cases hkg0
    · unfold newKeywords
      rw [List.filter_eq_nil_iff]
      intro kw hkw hc
      have he' : extractKeywordsE tx.normalized_desc tx.vendor_text =
          kg.2.keywords := he
      have hkw' : kw ∈ extractKeywordsE tx.normalized_desc tx.vendor_text := by
        rw [he']
        exact hkw
      have := hcover tx htx kw hkw'
      rw [Bool.and_eq_true] at hc
      rw [this] at hc
      cases hc.1
  unfold learnEnhanced
  rw [hgen, show sortCands ([] : List CandidateRule) = [] from rfl,
    List.take_nil]

/-- Two identical transactions whose description yields four novel
keywords. -/
def c7corpus : List LTx :=
  List.replicate 2
    ⟨"ALPHA BRAVO CHARLIE DELTA", none, some "Misc Expenses", some "Misc",
     9/10⟩

/-- C7 counterexample to the claim as stated: the first run's emitted rule
keeps only the first three of the four novel keywords
(`ALPHA BRAVO CHARLIE`); re-running with exactly those learned keywords
as `existing_keywords` still emits a rule (for `DELTA`), not zero. -/
theorem claim_C7_counterexample :
    learnEnhanced c7corpus 2 (8/10) [] 50 =
      [⟨"Auto-learned: ALPHA +3", 50, ["ALPHA", "BRAVO", "CHARLIE"],
        "Misc Expenses", "Misc", 2, 9/10⟩] ∧
    learnEnhanced c7corpus 2 (8/10) ["ALPHA", "BRAVO", "CHARLIE"] 50 =
      [⟨"Auto-learned: ALPHA", 50, ["DELTA"], "Misc Expenses", "Misc",
        2, 9/10⟩] := by
  with_unfolding_all decide

theorem claim_C7_witness :
    learnEnhanced c7corpus 2 (8/10)
      ["ALPHA", "BRAVO", "CHARLIE", "DELTA"] 50 = [] :=
  claim_C7 c7corpus 2 (8/10) ["ALPHA", "BRAVO", "CHARLIE", "DELTA"] 50
    (by with_unfolding_all decide)
